import Mathlib

/-!
Verification of the transition-state (TS) candidate generation pipeline of
`rmgcat_to_sella/ts_test_class.py`.

The Python module is shallowly embedded: file names are `List Char`,
geometry files are lists of text lines plus an opaque interatomic-distance
oracle (the ASE geometry back end is an external collaborator of the
module), and every fallible operation returns `Option`.  Machine floats of
the source are modelled exactly over `ℚ`.
-/

namespace TsTest

/-! ### Decimal rendering (Python `str` / `zfill`)

The source numbers candidate files with `str(n).zfill(3)`.  `natChars n`
is the big-endian decimal rendering of `n` and `zfill3` left-pads it with
the digit 0 to at least three characters. -/

def natCharsAux : ℕ → ℕ → List Char
| 0, _ => []
| fuel + 1, n =>
  if n = 0 then [] else natCharsAux fuel (n / 10) ++ [Nat.digitChar (n % 10)]

def natChars (n : ℕ) : List Char :=
if n = 0 then [('0' : Char)] else natCharsAux n n

def zfill3 (n : ℕ) : List Char :=
List.replicate (3 - (natChars n).length) '0' ++ natChars n

def digitVal (c : Char) : ℕ := c.toNat - ('0' : Char).toNat

def charsToNat (l : List Char) : ℕ :=
l.foldl (fun a c => a * 10 + digitVal c) 0

/-! ### Candidate Placer (`TS.TS_placer`, lines 210–225)

The source computes `possibleRotations = (360 / rotAngle) - 1` and loops
`while count <= possibleRotations`, writing, at each orientation `count`,
one file per adsorption-site placement `i`, numbered
`i + len(structs) * count` and zero-padded with `zfill(3)`.  The loop
condition for a natural `count` and a positive rational angle `r` is
`(count : ℚ) ≤ 360 / r - 1`; `numOrientations r` counts the iterations. -/

def loopCond (r : ℚ) (count : ℕ) : Bool :=
decide ((count : ℚ) ≤ 360 / r - 1)

def numOrientations (r : ℚ) : ℕ :=
(Int.floor ((360 : ℚ) / r)).toNat

/-- Sequence numbers written by the placer when the site builder returns
`S` placements at every orientation: for orientation `k` and site `i`,
the number is `i + S * k` (source: `str(i + len(structs) * count)`). -/
def tsPlacerNums (S : ℕ) (r : ℚ) : List ℕ :=
(List.range (numOrientations r)).flatMap (fun k => (List.range S).map (fun i => i + S * k))

def xyzExt : List Char := ('.' : Char) :: [('x' : Char), 'y', 'z']

/-- File names written by the placer: `zfill(3)` of the sequence number,
an underscore, the reaction name, and the `.xyz` suffix. -/
def tsPlacerFileNames (S : ℕ) (r : ℚ) (rxn : List Char) : List (List Char) :=
(tsPlacerNums S r).map (fun n => zfill3 n ++ ('_' :: (rxn ++ xyzExt)))

/-! ### Symmetry Deduplicator (`checkSymmBeforeXTB`, lines 477–494)

The source walks the sorted candidate files, keeping an accumulating list
`good_adsorbate` of structures found unique so far.  For each candidate it
calls `SymmetryEquivalenceCheck.compare(adsorbed, good_adsorbate)`, which
is `True` exactly when the candidate is equivalent to some member of the
list; matches are recorded in `result_list`, non-matches are appended to
`good_adsorbate`.  The equivalence test itself is an external collaborator
and is abstracted as a Boolean function `eq`. -/

def symmResults (eq : α → α → Bool) : List α → List α → List Bool
| _, [] => []
| good, x :: xs =>
  let r := good.any (fun g => eq x g)
  r :: symmResults eq (if r then good else good ++ [x]) xs

def goodAfter (eq : α → α → Bool) : List α → List α → List α
| good, [] => good
| good, x :: xs =>
  let r := good.any (fun g => eq x g)
  goodAfter eq (if r then good else good ++ [x]) xs

def notUniqueFrom (n : ℕ) : List Bool → List ℕ
| [] => []
| b :: bs => if b then n :: notUniqueFrom (n + 1) bs else notUniqueFrom (n + 1) bs

/-- Indices whose comparison result was `True` (the duplicates), rendered
with `zfill(3)` as in the source. -/
def checkSymmBeforeXTB (eq : α → α → Bool) (geoms : List α) : List (List Char) :=
(notUniqueFrom 0 (symmResults eq [] geoms)).map zfill3

/-! ### Duplicate deletion and renumbering
(`TS.filtered_out_equiv_ts_estimate`, lines 229–243)

The source deletes the file `eqsites + '_' + rxn_name + '.xyz'` for every
duplicate index, catching `OSError` (a missing file is printed and
skipped), then walks `enumerate(sorted(os.listdir(path)))` renaming each
remaining file to `str(prefix).zfill(3) + name[3:]`.  The directory is a
list of file names; `os.remove` on a missing name reports an error flag
instead of raising. -/

def osRemove (fs : List (List Char)) (f : List Char) : List (List Char) × Bool :=
if f ∈ fs then (fs.erase f, false) else (fs, true)

def deleteDuplicates : List (List Char) → List (List Char) → List (List Char) × List (List Char)
| fs, [] => (fs, [])
| fs, d :: ds =>
  let p := osRemove fs d
  let q := deleteDuplicates p.1 ds
  (q.1, if p.2 then d :: q.2 else q.2)

def lexLeB : List Char → List Char → Bool
| [], _ => true
| _ :: _, [] => false
| a :: as, b :: bs => if a = b then lexLeB as bs else decide (a.toNat < b.toNat)

def sortFiles (fs : List (List Char)) : List (List Char) :=
fs.insertionSort (fun a b => lexLeB a b = true)

def renumberFrom (k : ℕ) : List (List Char) → List (List Char)
| [] => []
| f :: fs => (zfill3 k ++ f.drop 3) :: renumberFrom (k + 1) fs

/-- Cleanup pass of `filtered_out_equiv_ts_estimate`: delete the duplicate
files named by `checkSymmBeforeXTB`, then renumber the sorted remainder
contiguously from 0.  Returns the final directory listing and the names
whose deletion failed. -/
def filtered_out_equiv_ts_estimate (files dupSites : List (List Char))
    (rxn : List Char) : List (List Char) × List (List Char) :=
let names := dupSites.map (fun e => e ++ ('_' :: (rxn ++ xyzExt)))
let q := deleteDuplicates files names
(renumberFrom 0 (sortFiles q.1), q.2)

/-- Whether a file name's first character past the numeric part is not a
digit (vacuously true of the empty remainder). -/
def headNonDigit : List Char → Bool
| [] => true
| c :: _ => !c.isDigit

/-! ### Geometry text scanning and average distances
(`get_av_dist` lines 337–376, `get_index_adatom` 414–426,
`get_index_surface_atom` 429–455)

A reference geometry is its file name, its text lines, and an opaque
distance oracle standing for ASE's `conf.get_distances` (indices are
integers because the source computes `num - 2`, which Python lets go
negative).  `get_av_dist` maps the species CH3O and CH2O to O and then
truncates multi-character symbols to their first character;
`get_index_adatom` and `get_index_surface_atom` only truncate. -/

def avDistSymbol (species : List Char) : List Char :=
let s := if species = ("CH3O").data ∨ species = ("CH2O").data then ("O").data else species
if 1 < s.length then s.take 1 else s

def adatomSymbol (s : List Char) : List Char :=
if 1 < s.length then s.take 1 else s

def cuSpace : List Char := ("Cu ").data

def cuSym : List Char := ("Cu").data

/-- Python's substring test `pat in s`. -/
def containsSub (pat : List Char) : List Char → Bool
| [] => pat.isEmpty
| c :: rest => pat.isPrefixOf (c :: rest) || containsSub pat rest

def lineIsSurface (l : List Char) : Bool := containsSub cuSpace l

def lineIsAds (sp l : List Char) : Bool := containsSub sp l && !(containsSub cuSym l)

def scanFrom (sp : List Char) (num : ℤ) : List (List Char) → List ℤ × List ℤ
| [] => ([], [])
| l :: ls =>
  let rest := scanFrom sp (num + 1) ls
  if lineIsSurface l then ((num - 2) :: rest.1, rest.2)
  else if lineIsAds sp l then (rest.1, (num - 2) :: rest.2)
  else rest

/-- Scan of one geometry text: surface-atom indices (lines containing
the marker Cu followed by a space) and adsorbate-atom indices (lines
containing the species symbol but not Cu), both as line number minus 2. -/
def scanGeom (sp : List Char) (lines : List (List Char)) : List ℤ × List ℤ :=
scanFrom sp 0 lines

structure RefGeom where
  fname : List Char
  lines : List (List Char)
  dist : ℤ → ℤ → ℚ

def listMin : List ℚ → Option ℚ
| [] => none
| x :: xs => some (xs.foldl min x)

def isFinalXyz (f : List Char) : Bool := (("_final.xyz").data).isSuffixOf f

def qmean (l : List ℚ) : ℚ := l.sum / l.length

/-- Loop body of `get_av_dist`: the surface and adsorbate index lists and
the list of per-structure minima persist across the files (they are
initialised once, before the `for xyz in sorted(...)` loop).  Failure of
`adsorbate_atoms_indices[0]` or of `min` over an empty sequence is the
`none` outcome. -/
def avDistLoop (sp : List Char) :
    List RefGeom → List ℤ → List ℤ → List ℚ → Option (List ℚ)
| [], _, _, ds => some ds
| g :: gs, surf, ads, ds =>
  let sc := scanGeom sp g.lines
  let surf2 := surf ++ sc.1
  let ads2 := ads ++ sc.2
  (ads2.head?).bind (fun a0 =>
    (listMin (surf2.map (fun j => g.dist a0 j))).bind (fun d =>
      avDistLoop sp gs surf2 ads2 (ds ++ [d])))

/-- Model of `get_av_dist`: Python raises when no reference produced a
distance (the variable `meanDist` is then unbound at `return`). -/
def get_av_dist (refs : List RefGeom) (species : List Char) (sc : ℚ)
    (scaled : Bool) : Option ℚ :=
let sp := avDistSymbol species
let files := refs.filter (fun g => isFinalXyz g.fname)
(avDistLoop sp files [] [] []).bind (fun ds =>
  if ds.isEmpty then none
  else some (if scaled then qmean ds * sc else qmean ds))

/-- Per-structure minimum as the specification describes it: each
reference structure's surface and adsorbate atom lines are identified
within that structure alone. -/
def claimedFileMin (sp : List Char) (g : RefGeom) : Option ℚ :=
let s := scanGeom sp g.lines
(s.2.head?).bind (fun a0 => listMin (s.1.map (fun j => g.dist a0 j)))

def claimedMins (sp : List Char) : List RefGeom → Option (List ℚ)
| [] => some []
| g :: gs =>
  (claimedFileMin sp g).bind (fun d =>
    (claimedMins sp gs).map (fun ds => d :: ds))

/-- Average distance as claimed by the specification (per-structure
identification of atom roles), for comparison with `get_av_dist`. -/
def get_av_dist_claimed (refs : List RefGeom) (species : List Char) (sc : ℚ)
    (scaled : Bool) : Option ℚ :=
let sp := avDistSymbol species
let files := refs.filter (fun g => isFinalXyz g.fname)
(claimedMins sp files).bind (fun ds =>
  if ds.isEmpty then none
  else some (if scaled then qmean ds * sc else qmean ds))

def adatomScan (sp : List Char) (num : ℤ) : List (List Char) → List ℤ
| [] => []
| l :: ls =>
  if lineIsAds sp l then (num - 2) :: adatomScan sp (num + 1) ls
  else adatomScan sp (num + 1) ls

/-- Model of `get_index_adatom`: first (lowest-numbered) adsorbate match;
`adsorbate_atom[0]` on an empty match list is the `none` outcome. -/
def get_index_adatom (ads : List Char) (lines : List (List Char)) : Option ℤ :=
(adatomScan (adatomSymbol ads) 0 lines).head?

/-- Model of `get_index_surface_atom`: index of the surface atom closest
to the first matched adsorbate atom (`np.where(all == min)[0][0]`). -/
def get_index_surface_atom (ads : List Char) (g : RefGeom) : Option ℤ :=
let s := scanGeom (adatomSymbol ads) g.lines
(s.2.head?).bind (fun a0 =>
  let ds := s.1.map (fun j => g.dist a0 j)
  (listMin ds).bind (fun m =>
    ((s.1.zip ds).find? (fun p => p.2 == m)).map (fun p => p.1)))

/-- Concatenation of `m` copies of a list, used to describe the
accumulated scan lists of `avDistLoop`. -/
def repConcat : ℕ → List α → List α
| 0, _ => []
| m + 1, l => l ++ repConcat m l

/-! ### Penalty-Job Emitter (`set_up_penalty_xtb`, lines 556–621)

The module-level function computes `avDist1`/`avDist2` once, before the
candidate loop, and writes the same `avDists` tuple into every job file;
per candidate it resolves the bond index pairs from that candidate's
geometry text. -/

structure PenaltyJob where
  geomName : List Char
  bonds : List (Option ℤ × Option ℤ)
  avDists : Option ℚ × Option ℚ
deriving DecidableEq

def isXyz (f : List Char) : Bool := xyzExt.isSuffixOf f

def sortGeoms (gs : List RefGeom) : List RefGeom :=
gs.insertionSort (fun a b => lexLeB a.fname b.fname = true)

def set_up_penalty_xtb (refs1 refs2 : List RefGeom) (sp1 sp2 : List Char)
    (sc : ℚ) (scaled1 scaled2 : Bool) (cands : List RefGeom) : List PenaltyJob :=
let av1 := get_av_dist refs1 sp1 sc scaled1
let av2 := get_av_dist refs2 sp2 sc scaled2
((sortGeoms cands).filter (fun g => isXyz g.fname)).map (fun g =>
  { geomName := g.fname
    bonds := [sp1, sp2].map
      (fun sp => (get_index_adatom sp g.lines, get_index_surface_atom sp g))
    avDists := (av1, av2) })

/-! ### Species Resolver side choice (`prepare_react_list` lines 120–125,
`TS_placer` lines 142–148)

`prepare_react_list` chooses the reactants directory only when the
reactant list is strictly shorter; `TS_placer` takes the reactant formula
whenever the reactant list is at most as long as the product list, and
the product image otherwise. -/

inductive TSChoice
| fromReactantFormula : List Char → TSChoice
| fromProductImage : TSChoice
deriving DecidableEq

def rpDir (r p : List (List Char)) : List Char :=
if r.length < p.length then ("reactants").data else ("products").data

def tsCandidate (r p : List (List Char)) : TSChoice :=
if r.length ≤ p.length then TSChoice.fromReactantFormula (r.headD [])
else TSChoice.fromProductImage

/-! ### Concrete inputs used by witnesses and counterexamples -/

/-- Reference geometry with the adsorbate oxygen on the last line. -/
def refA : RefGeom :=
{ fname := ("01_final.xyz").data
  lines := [("2").data, ("slab").data, ("Cu 0 0 0").data, ("O 0 0 1").data]
  dist := fun _ _ => 1 }

/-- Reference geometry with the opposite line layout: the adsorbate
oxygen comes first, the surface atom last. -/
def refB : RefGeom :=
{ fname := ("02_final.xyz").data
  lines := [("2").data, ("slab").data, ("O 0 0 0").data, ("Cu 0 0 1").data]
  dist := fun i j => if i = j then 0 else 1 }

/-- Reference geometry with the same line layout as `refA` but a
different distance oracle. -/
def refC : RefGeom :=
{ fname := ("03_final.xyz").data
  lines := [("2").data, ("slab").data, ("Cu 0 0 0").data, ("O 0 0 1").data]
  dist := fun _ _ => 3 }

/-- Geometry text with a carbon line before an oxygen line. -/
def demoLines : List (List Char) :=
[("2").data, ("slab").data, ("C 0 0 0").data, ("O 0 0 1").data]

/-- Candidate geometry for the emitter witness. -/
def demoCand : RefGeom :=
{ fname := ("000_R.xyz").data
  lines := [("2").data, ("slab").data, ("Cu 0 0 0").data, ("O 0 0 1").data]
  dist := fun _ _ => 1 }

/-- Survivor listing for the renumbering witness. -/
def demoSurvivors : List (List Char) :=
[("002_A.xyz").data, ("005_A.xyz").data]

/-- The job the emitter produces for `demoCand` with tracked species O and
H and no reference minima. -/
def demoJob : PenaltyJob :=
{ geomName := demoCand.fname
  bonds := [(some 1, some 0), (none, none)]
  avDists := (none, none) }

/-! ### Properties of the decimal rendering -/

theorem natCharsAux_eq_digits :
    ∀ (fuel n : ℕ), n ≤ fuel →
      natCharsAux fuel n = ((Nat.digits 10 n).reverse).map Nat.digitChar := by
  intro fuel
  induction fuel with
  | zero =>
      intro n hn
      interval_cases n
      simp [natCharsAux]
  | succ fuel ih =>
      intro n hn
      by_cases h : n = 0
      · subst h; simp [natCharsAux]
      · have hpos : 0 < n := Nat.pos_of_ne_zero h
        have hdiv : n / 10 ≤ fuel := by
          have := Nat.div_lt_self hpos (by norm_num : 1 < 10)
          omega
        rw [natCharsAux, if_neg h, ih _ hdiv,
          Nat.digits_def' (by norm_num : 1 < 10) hpos]
        simp

theorem natChars_eq_digits (n : ℕ) (h : n ≠ 0) :
    natChars n = ((Nat.digits 10 n).reverse).map Nat.digitChar := by
  rw [natChars, if_neg h]
  exact natCharsAux_eq_digits n n le_rfl

theorem digitVal_digitChar {d : ℕ} (hd : d < 10) :
    digitVal (Nat.digitChar d) = d := by
  interval_cases d <;> rfl

theorem isDigit_digitChar {d : ℕ} (hd : d < 10) :
    (Nat.digitChar d).isDigit = true := by
  interval_cases d <;> rfl

theorem foldl_step_replicate_zero (k : ℕ) (l : List Char) :
    (List.replicate k '0' ++ l).foldl (fun a c => a * 10 + digitVal c) 0 =
      l.foldl (fun a c => a * 10 + digitVal c) 0 := by
  induction k with
  | zero => rfl
  | succ k ih => simpa [List.replicate_succ] using ih

theorem foldl_step_digits (ds : List ℕ) (hds : ∀ d ∈ ds, d < 10) :
    ∀ a : ℕ, ((ds.reverse).map Nat.digitChar).foldl (fun a c => a * 10 + digitVal c) a =
      a * 10 ^ ds.length + Nat.ofDigits 10 ds := by
  induction ds with
  | nil => intro a; simp [Nat.ofDigits]
  | cons d t ih =>
      intro a
      have hd : d < 10 := hds d (by simp)
      have ht : ∀ x ∈ t, x < 10 := fun x hx => hds x (by simp [hx])
      have hrev : (d :: t).reverse = t.reverse ++ [d] := by simp
      rw [hrev, List.map_append, List.foldl_append, ih ht a]
      simp only [List.map_cons, List.map_nil, List.foldl_cons, List.foldl_nil]
      rw [digitVal_digitChar hd, Nat.ofDigits_cons]
      simp only [List.length_cons, pow_succ]
      ring

theorem charsToNat_natChars (n : ℕ) : charsToNat (natChars n) = n := by
  by_cases h : n = 0
  · subst h; rfl
  · have hds : ∀ d ∈ Nat.digits 10 n, d < 10 :=
      fun d hd => Nat.digits_lt_base (by norm_num) hd
    have := foldl_step_digits (Nat.digits 10 n) hds 0
    simp only [charsToNat]
    rw [natChars_eq_digits n h, this, Nat.ofDigits_digits]
    simp

theorem charsToNat_zfill3 (n : ℕ) : charsToNat (zfill3 n) = n := by
  unfold zfill3 charsToNat
  rw [foldl_step_replicate_zero]
  exact charsToNat_natChars n

theorem zfill3_injective : Function.Injective zfill3 := by
  intro n m h
  have := charsToNat_zfill3 n
  rw [h, charsToNat_zfill3] at this
  omega

theorem zfill3_isDigit (n : ℕ) : ∀ c ∈ zfill3 n, c.isDigit = true := by
  intro c hc
  unfold zfill3 at hc
  rcases List.mem_append.mp hc with h | h
  · have := List.eq_of_mem_replicate h
    subst this; rfl
  · by_cases hn : n = 0
    · subst hn
      simp [natChars] at h
      subst h; rfl
    · rw [natChars_eq_digits n hn] at h
      obtain ⟨d, hd, rfl⟩ := List.mem_map.mp h
      exact isDigit_digitChar (Nat.digits_lt_base (by norm_num) (List.mem_reverse.mp hd))

theorem natChars_length_le_three (n : ℕ) (h : n ≤ 999) :
    (natChars n).length ≤ 3 := by
  by_cases hn : n = 0
  · subst hn; simp [natChars]
  · rw [natChars_eq_digits n hn]
    simp only [List.length_map, List.length_reverse]
    rw [Nat.digits_len 10 n (by norm_num) hn]
    have : Nat.log 10 n < 3 :=
      Nat.log_lt_of_lt_pow hn (by norm_num; omega : n < 10 ^ 3)
    omega

theorem zfill3_length_eq_three (n : ℕ) (h : n ≤ 999) :
    (zfill3 n).length = 3 := by
  have := natChars_length_le_three n h
  simp only [zfill3, List.length_append, List.length_replicate]
  omega

/-! ### Properties of the placer count -/

theorem loopCond_iff (r : ℚ) (hr : 0 < r) (k : ℕ) :
    loopCond r k = true ↔ k < numOrientations r := by
  unfold loopCond numOrientations
  rw [decide_eq_true_iff]
  have h1 : ((k : ℚ) ≤ 360 / r - 1) ↔ ((k : ℚ) + 1 ≤ 360 / r) := by
    constructor <;> intro h <;> linarith
  rw [h1]
  have h2 : ((k : ℚ) + 1 ≤ 360 / r) ↔ ((k + 1 : ℤ) : ℚ) ≤ 360 / r := by
    push_cast; tauto
  rw [h2, ← Int.le_floor]
  have hfl : (0 : ℤ) ≤ Int.floor ((360 : ℚ) / r) := by
    apply Int.floor_nonneg.mpr
    positivity
  omega

theorem flatMap_range_nums (S : ℕ) : ∀ K : ℕ,
    (List.range K).flatMap (fun k => (List.range S).map (fun i => i + S * k)) =
      List.range (S * K) := by
  intro K
  induction K with
  | zero => simp
  | succ K ih =>
      rw [List.range_succ, List.flatMap_append, ih]
      have : S * (K + 1) = S * K + S := by ring
      rw [this, List.range_add]
      simp only [List.flatMap_cons, List.flatMap_nil, List.append_nil]
      congr 1
      apply List.map_congr_left
      intro i _
      omega

theorem tsPlacerNums_eq_range (S : ℕ) (r : ℚ) :
    tsPlacerNums S r = List.range (S * numOrientations r) :=
  flatMap_range_nums S (numOrientations r)

/-! ### Properties of the deduplicator -/

theorem symmResults_length (eq : α → α → Bool) :
    ∀ (l good : List α), (symmResults eq good l).length = l.length := by
  intro l
  induction l with
  | nil => intro good; rfl
  | cons x xs ih => intro good; simp [symmResults, ih]

theorem symmResults_append (eq : α → α → Bool) :
    ∀ (l₁ l₂ good : List α),
      symmResults eq good (l₁ ++ l₂) =
        symmResults eq good l₁ ++ symmResults eq (goodAfter eq good l₁) l₂ := by
  intro l₁
  induction l₁ with
  | nil => intro l₂ good; rfl
  | cons x xs ih =>
      intro l₂ good
      simp only [List.cons_append, symmResults, goodAfter, List.cons.injEq, true_and]
      exact ih l₂ _

theorem goodAfter_append (eq : α → α → Bool) :
    ∀ (l₁ l₂ good : List α),
      goodAfter eq good (l₁ ++ l₂) = goodAfter eq (goodAfter eq good l₁) l₂ := by
  intro l₁
  induction l₁ with
  | nil => intro l₂ good; rfl
  | cons x xs ih =>
      intro l₂ good
      simp only [List.cons_append, goodAfter]
      exact ih l₂ _

theorem goodAfter_extension (eq : α → α → Bool) :
    ∀ (l good : List α), ∃ t, goodAfter eq good l = good ++ t := by
  intro l
  induction l with
  | nil => intro good; exact ⟨[], by simp [goodAfter]⟩
  | cons x xs ih =>
      intro good
      simp only [goodAfter]
      by_cases h : good.any (fun g => eq x g)
      · simpa [h] using ih good
      · obtain ⟨t, ht⟩ := ih (good ++ [x])
        refine ⟨[x] ++ t, ?_⟩
        simp only [h]
        simpa using ht

theorem goodAfter_sublist (eq : α → α → Bool) :
    ∀ (l good : List α), (goodAfter eq good l).Sublist (good ++ l) := by
  intro l
  induction l with
  | nil => intro good; simp [goodAfter]
  | cons x xs ih =>
      intro good
      simp only [goodAfter]
      by_cases h : good.any (fun g => eq x g)
      · simp only [h, if_true]
        exact (ih good).trans
          (List.Sublist.append_left (List.sublist_cons_self x xs) good)
      · simp only [h, if_false]
        have := ih (good ++ [x])
        simpa using this

theorem mem_notUniqueFrom :
    ∀ (rs : List Bool) (n i : ℕ),
      i ∈ notUniqueFrom n rs ↔ ∃ k, rs.get? k = some true ∧ i = n + k := by
  intro rs
  induction rs with
  | nil => intro n i; simp [notUniqueFrom]
  | cons b bs ih =>
      intro n i
      cases b with
      | false =>
          simp only [notUniqueFrom, if_false, Bool.false_eq_true, ih]
          constructor
          · rintro ⟨k, hk, rfl⟩
            exact ⟨k + 1, by simpa using hk, by omega⟩
          · rintro ⟨k, hk, rfl⟩
            cases k with
            | zero => simp at hk
            | succ k => exact ⟨k, by simpa using hk, by omega⟩
      | true =>
          simp only [notUniqueFrom, if_true, List.mem_cons, ih]
          constructor
          · rintro (rfl | ⟨k, hk, rfl⟩)
            · exact ⟨0, by simp, by omega⟩
            · exact ⟨k + 1, by simpa using hk, by omega⟩
          · rintro ⟨k, hk, rfl⟩
            cases k with
            | zero => left; omega
            | succ k => right; exact ⟨k, by simpa using hk, by omega⟩

theorem symmResults_get? (eq : α → α → Bool) (geoms : List α) (i : ℕ)
    (hi : i < geoms.length) :
    (symmResults eq [] geoms).get? i =
      some ((goodAfter eq [] (geoms.take i)).any
        (fun g => eq (geoms.get ⟨i, hi⟩) g)) := by
  conv_lhs => rw [← List.take_append_drop i geoms]
  rw [symmResults_append]
  have hlen : (symmResults eq [] (geoms.take i)).length = i := by
    rw [symmResults_length]
    exact List.length_take_of_le (Nat.le_of_lt hi)
  rw [List.get?_append_right (by omega)]
  rw [hlen, Nat.sub_self]
  have hdrop : geoms.drop i = geoms.get ⟨i, hi⟩ :: geoms.drop (i + 1) := by
    rw [← List.getElem_cons_drop geoms i hi]
    rfl
  rw [hdrop]
  rfl

/-! ### Properties of deletion and renumbering -/

theorem deleteDuplicates_fst_subset :
    ∀ (ds fs : List (List Char)), (deleteDuplicates fs ds).1 ⊆ fs := by
  intro ds
  induction ds with
  | nil => intro fs; simp [deleteDuplicates]
  | cons d t ih =>
      intro fs
      simp only [deleteDuplicates, osRemove]
      by_cases h : d ∈ fs
      · simp only [h, if_true]
        exact (ih _).trans (List.erase_subset _ _)
      · simpa [h] using ih fs

theorem deleteDuplicates_missing :
    ∀ (pre post fs : List (List Char)) (d : List Char), d ∉ fs →
      (deleteDuplicates fs (pre ++ d :: post)).1 =
          (deleteDuplicates fs (pre ++ post)).1
        ∧ d ∈ (deleteDuplicates fs (pre ++ d :: post)).2 := by
  intro pre
  induction pre with
  | nil =>
      intro post fs d hd
      simp [deleteDuplicates, osRemove, if_neg hd]
  | cons n t ih =>
      intro post fs d hd
      simp only [List.cons_append, deleteDuplicates]
      have hsub : (osRemove fs n).1 ⊆ fs := by
        unfold osRemove
        by_cases h : n ∈ fs
        · simp only [h, if_true]
          exact List.erase_subset _ _
        · simp [h]
      have hd2 : d ∉ (osRemove fs n).1 := fun hmem => hd (hsub hmem)
      obtain ⟨h1, h2⟩ := ih post (osRemove fs n).1 d hd2
      refine ⟨h1, ?_⟩
      by_cases hflag : (osRemove fs n).2 <;> simp [hflag, h2]

theorem renumberFrom_length :
    ∀ (fs : List (List Char)) (k : ℕ), (renumberFrom k fs).length = fs.length := by
  intro fs
  induction fs with
  | nil => intro k; rfl
  | cons f t ih => intro k; simp [renumberFrom, ih]

theorem renumberFrom_get? :
    ∀ (fs : List (List Char)) (k i : ℕ) (hi : i < fs.length),
      (renumberFrom k fs).get? i =
        some (zfill3 (k + i) ++ (fs.get ⟨i, hi⟩).drop 3) := by
  intro fs
  induction fs with
  | nil => intro k i hi; simp at hi
  | cons f t ih =>
      intro k i hi
      cases i with
      | zero => simp [renumberFrom]
      | succ i =>
          have hi2 : i < t.length := by simpa using hi
          have := ih (k + 1) i hi2
          simpa [renumberFrom, Nat.add_assoc, Nat.add_comm 1 i] using this

theorem takeWhile_append_all (p : Char → Bool) :
    ∀ (l₁ l₂ : List Char), (∀ c ∈ l₁, p c = true) →
      (l₁ ++ l₂).takeWhile p = l₁ ++ l₂.takeWhile p := by
  intro l₁
  induction l₁ with
  | nil => intro l₂ _; rfl
  | cons c t ih =>
      intro l₂ h
      have hc : p c = true := h c (by simp)
      simp only [List.cons_append, List.takeWhile_cons, hc, if_true]
      rw [ih l₂ (fun x hx => h x (by simp [hx]))]

theorem dropWhile_append_all (p : Char → Bool) :
    ∀ (l₁ l₂ : List Char), (∀ c ∈ l₁, p c = true) →
      (l₁ ++ l₂).dropWhile p = l₂.dropWhile p := by
  intro l₁
  induction l₁ with
  | nil => intro l₂ _; rfl
  | cons c t ih =>
      intro l₂ h
      have hc : p c = true := h c (by simp)
      simp only [List.cons_append, List.dropWhile_cons, hc, if_true]
      exact ih l₂ (fun x hx => h x (by simp [hx]))

theorem takeWhile_headNonDigit (s : List Char) (h : headNonDigit s = true) :
    s.takeWhile Char.isDigit = [] := by
  cases s with
  | nil => rfl
  | cons c t =>
      simp only [headNonDigit, Bool.not_eq_eq_eq_not, Bool.not_true] at h
      simp [List.takeWhile_cons, h]

theorem dropWhile_headNonDigit (s : List Char) (h : headNonDigit s = true) :
    s.dropWhile Char.isDigit = s := by
  cases s with
  | nil => rfl
  | cons c t =>
      simp only [headNonDigit, Bool.not_eq_eq_eq_not, Bool.not_true] at h
      simp [List.dropWhile_cons, h]

/-! ### Properties of list minima and of the averaging loop -/

theorem foldl_min_min (l : List ℚ) : ∀ a b : ℚ,
    l.foldl min (min a b) = min a (l.foldl min b) := by
  induction l with
  | nil => intro a b; rfl
  | cons c t ih =>
      intro a b
      simp only [List.foldl_cons]
      rw [min_assoc, ih]

theorem listMin_append (A B : List ℚ) :
    listMin (A ++ B) =
      match listMin A, listMin B with
      | none, b => b
      | some x, none => some x
      | some x, some y => some (min x y) := by
  cases A with
  | nil =>
      cases hB : listMin B with
      | none => rw [List.nil_append, hB]; rfl
      | some v => rw [List.nil_append, hB]; rfl
  | cons x xs =>
      cases B with
      | nil => simp [listMin]
      | cons y yt =>
          simp only [listMin, List.cons_append, List.foldl_append, List.foldl_cons]
          rw [foldl_min_min]

theorem repConcat_nil (m : ℕ) : repConcat m ([] : List α) = [] := by
  induction m with
  | zero => rfl
  | succ m ih => simp [repConcat, ih]

theorem repConcat_succ_eq (m : ℕ) (l : List α) :
    repConcat (m + 1) l = repConcat m l ++ l := by
  induction m with
  | zero => simp [repConcat]
  | succ m ih =>
      calc repConcat (m + 2) l = l ++ repConcat (m + 1) l := rfl
      _ = l ++ (repConcat m l ++ l) := by rw [ih]
      _ = (l ++ repConcat m l) ++ l := by simp
      _ = repConcat (m + 1) l ++ l := rfl

theorem head?_repConcat_succ (m : ℕ) (l : List α) (h : l ≠ []) :
    (repConcat (m + 1) l).head? = l.head? := by
  cases l with
  | nil => exact absurd rfl h
  | cons c t => rfl

theorem listMin_map_repConcat (f : ℤ → ℚ) (s : List ℤ) : ∀ m : ℕ,
    listMin ((repConcat (m + 1) s).map f) = listMin (s.map f) := by
  intro m
  induction m with
  | zero => simp [repConcat]
  | succ m ih =>
      have : repConcat (m + 2) s = s ++ repConcat (m + 1) s := rfl
      rw [this, List.map_append, listMin_append, ih]
      cases listMin (s.map f) with
      | none => rfl
      | some x => simp

theorem avDistLoop_uniform (sp : List Char) (s a : List ℤ) :
    ∀ (gs : List RefGeom) (m : ℕ) (ds : List ℚ),
      (∀ g ∈ gs, scanGeom sp g.lines = (s, a)) →
      avDistLoop sp gs (repConcat m s) (repConcat m a) ds =
        (claimedMins sp gs).map (fun l => ds ++ l) := by
  intro gs
  induction gs with
  | nil => intro m ds _; simp [avDistLoop, claimedMins]
  | cons g t ih =>
      intro m ds h
      have hg : scanGeom sp g.lines = (s, a) := h g (by simp)
      have ht : ∀ x ∈ t, scanGeom sp x.lines = (s, a) :=
        fun x hx => h x (by simp [hx])
      simp only [avDistLoop, claimedMins, claimedFileMin, hg]
      rw [← repConcat_succ_eq, ← repConcat_succ_eq]
      cases ha : a with
      | nil =>
          subst ha
          simp [repConcat_nil]
      | cons a0 t' =>
          subst ha
          have hhead : (repConcat (m + 1) (a0 :: t')).head? = some a0 :=
            head?_repConcat_succ m _ (by simp)
          rw [hhead]
          simp only [List.head?_cons, Option.some_bind]
          rw [listMin_map_repConcat]
          cases hmin : listMin (s.map (fun j => g.dist a0 j)) with
          | none => simp
          | some d =>
              simp only [Option.some_bind]
              rw [ih (m + 1) (ds ++ [d]) ht]
              cases claimedMins sp t with
              | none => rfl
              | some l => simp

/-! ### Properties of the text scanners -/

theorem scanFrom_snd_nil (sp : List Char) :
    ∀ (lines : List (List Char)) (num : ℤ),
      (∀ l ∈ lines, lineIsAds sp l = false) →
      (scanFrom sp num lines).2 = [] := by
  intro lines
  induction lines with
  | nil => intro num _; rfl
  | cons l ls ih =>
      intro num h
      have hl : lineIsAds sp l = false := h l (by simp)
      have hls := ih (num + 1) (fun x hx => h x (by simp [hx]))
      simp only [scanFrom]
      by_cases hs : lineIsSurface l = true
      · simp [hs, hls]
      · simp only [Bool.not_eq_true] at hs
        simp [hs, hl, hls]

theorem adatomScan_nil (sp : List Char) :
    ∀ (lines : List (List Char)) (num : ℤ),
      (∀ l ∈ lines, lineIsAds sp l = false) →
      adatomScan sp num lines = [] := by
  intro lines
  induction lines with
  | nil => intro num _; rfl
  | cons l ls ih =>
      intro num h
      have hl : lineIsAds sp l = false := h l (by simp)
      simp [adatomScan, hl, ih (num + 1) (fun x hx => h x (by simp [hx]))]

theorem adatomScan_head (sp : List Char) :
    ∀ (lines : List (List Char)) (num : ℤ)
      (h : ∃ i, ((lines.get? i).any (lineIsAds sp)) = true),
      (adatomScan sp num lines).head? = some (num + (Nat.find h : ℤ) - 2) := by
  intro lines
  induction lines with
  | nil =>
      intro num h
      exact absurd h (by simp)
  | cons l ls ih =>
      intro num h
      by_cases hl : lineIsAds sp l = true
      · have hfind : Nat.find h = 0 := by
          rw [Nat.find_eq_zero]
          simpa using hl
        rw [hfind]
        simp [adatomScan, hl]
      · have h' : ∃ i, ((ls.get? i).any (lineIsAds sp)) = true := by
          obtain ⟨i, hi⟩ := h
          cases i with
          | zero =>
              simp only [List.get?_cons_zero, Option.any_some] at hi
              exact absurd hi hl
          | succ i => exact ⟨i, by simpa using hi⟩
        have hfind : Nat.find h = Nat.find h' + 1 := by
          rw [Nat.find_eq_iff]
          constructor
          · have := Nat.find_spec h'
            simpa using this
          · intro m hm
            cases m with
            | zero => simpa using hl
            | succ m =>
                have := Nat.find_min h' (by omega : m < Nat.find h')
                simpa using this
        rw [hfind]
        have hstep : adatomScan sp num (l :: ls) = adatomScan sp (num + 1) ls := by
          simp [adatomScan, hl]
        rw [hstep, ih (num + 1) h']
        congr 1
        push_cast
        ring

/-! ### The claims -/

/-- C1 (counterexample): for rotation increment 7°, the placer writes
`S × floor(360/7) = 51` files, not `S × ceil(360/7) = 52` as claimed. -/
theorem claim_C1_counterexample :
    (tsPlacerFileNames 1 7 []).length ≠ 1 * (Int.ceil ((360 : ℚ) / 7)).toNat := by
  have hfl : Int.floor ((360 : ℚ) / 7) = 51 := by
    rw [Int.floor_eq_iff]
    constructor <;> norm_num
  have hce : Int.ceil ((360 : ℚ) / 7) = 52 := by
    rw [Int.ceil_eq_iff]
    constructor <;> norm_num
  rw [hce]
  simp only [tsPlacerFileNames, List.length_map, tsPlacerNums_eq_range,
    List.length_range, numOrientations, hfl]
  decide

/-- C1 (amended): for a positive rotation increment `r`, the placer loop
runs `numOrientations r = floor(360/r)` iterations (the loop condition
`count <= 360/r - 1` holds exactly for `count < numOrientations r`), the
sequence numbers `i + S·k` written are exactly `0, …, S·floor(360/r) - 1`,
and the `S × floor(360/r)` zero-padded file names are pairwise distinct.
The claim's `ceil(360/r)` only agrees when `r` divides 360. -/
theorem claim_C1_amended_placer_count (S : ℕ) (r : ℚ) (rxn : List Char) (hr : 0 < r) :
    (∀ k : ℕ, loopCond r k = true ↔ k < numOrientations r)
    ∧ numOrientations r = (Int.floor ((360 : ℚ) / r)).toNat
    ∧ tsPlacerNums S r = List.range (S * numOrientations r)
    ∧ (tsPlacerFileNames S r rxn).length = S * numOrientations r
    ∧ (tsPlacerFileNames S r rxn).Nodup := by
  refine ⟨loopCond_iff r hr, rfl, tsPlacerNums_eq_range S r, ?_, ?_⟩
  · simp [tsPlacerFileNames, tsPlacerNums_eq_range]
  · unfold tsPlacerFileNames
    rw [tsPlacerNums_eq_range]
    refine List.Nodup.map ?_ (List.nodup_range _)
    intro n m h
    exact zfill3_injective (List.append_cancel_right h)

/-- C1 (witness): the amended count theorem at S = 2 sites and a 60°
increment. -/
theorem claim_C1_witness :
    (0 : ℚ) < 60
    ∧ ((∀ k : ℕ, loopCond 60 k = true ↔ k < numOrientations 60)
      ∧ numOrientations 60 = (Int.floor ((360 : ℚ) / 60)).toNat
      ∧ tsPlacerNums 2 60 = List.range (2 * numOrientations 60)
      ∧ (tsPlacerFileNames 2 60 []).length = 2 * numOrientations 60
      ∧ (tsPlacerFileNames 2 60 []).Nodup) :=
  ⟨by norm_num, claim_C1_amended_placer_count 2 60 [] (by norm_num)⟩

/-- C4 (counterexample): with one reactant species and one product
species (equal list lengths), the resolver picks the products side but
`TS_placer` builds the candidate from the reactant formula, not from the
product geometry. -/
theorem claim_C4_counterexample :
    rpDir [("A").data] [("B").data] = ("products").data
    ∧ tsCandidate [("A").data] [("B").data] ≠ TSChoice.fromProductImage := by
  constructor
  · decide
  · decide

/-- C4 (amended): on equal-length species lists the resolver reports the
products side, but the placer uses the reactant-side first formula; the
product image is used only when reactants strictly outnumber products. -/
theorem claim_C4_amended_tie_choice (r p : List (List Char)) (h : r.length = p.length) :
    rpDir r p = ("products").data
    ∧ tsCandidate r p = TSChoice.fromReactantFormula (r.headD []) := by
  unfold rpDir tsCandidate
  rw [if_neg (by omega), if_pos (by omega)]
  exact ⟨rfl, rfl⟩

/-- C4 (witness): the amended tie-break statement on a concrete
equal-length reaction. -/
theorem claim_C4_witness :
    rpDir [("OH").data] [("CO").data] = ("products").data
    ∧ tsCandidate [("OH").data] [("CO").data] =
        TSChoice.fromReactantFormula (("OH").data) := by
  have h := claim_C4_amended_tie_choice [("OH").data] [("CO").data] (by decide)
  simpa using h

/-- C6 (counterexample): `get_index_adatom` does not map CH3O to oxygen:
on a geometry with a carbon line before the oxygen line it returns the
carbon index 0, while the oxygen scan returns index 1. -/
theorem claim_C6_counterexample :
    get_index_adatom (("CH3O").data) demoLines = some 0
    ∧ get_index_adatom (("O").data) demoLines = some 1
    ∧ get_index_adatom (("CH3O").data) demoLines ≠
        get_index_adatom (("O").data) demoLines := by
  refine ⟨by decide, by decide, by decide⟩

/-- C6 (amended): the CH3O/CH2O → O mapping is applied only by the
distance-averaging symbol normalisation (`get_av_dist`); the index
resolution helpers truncate every multi-character symbol, CH3O and CH2O
included, to its first character. -/
theorem claim_C6_amended_symbol_mapping (s : List Char) :
    ((s = ("CH3O").data ∨ s = ("CH2O").data) → avDistSymbol s = ("O").data)
    ∧ (1 < s.length → ¬(s = ("CH3O").data ∨ s = ("CH2O").data) →
        avDistSymbol s = s.take 1)
    ∧ (1 < s.length → adatomSymbol s = s.take 1)
    ∧ (s.length ≤ 1 → avDistSymbol s = s ∧ adatomSymbol s = s) := by
  unfold avDistSymbol adatomSymbol
  refine ⟨?_, ?_, ?_, ?_⟩
  · intro h
    rw [if_pos h]
    decide
  · intro h1 h2
    rw [if_neg h2, if_pos h1]
  · intro h1
    rw [if_pos h1]
  · intro h1
    have h2 : ¬(s = ("CH3O").data ∨ s = ("CH2O").data) := by
      rintro (rfl | rfl) <;> simp at h1
    rw [if_neg h2]
    exact ⟨by rw [if_neg (by omega)], by rw [if_neg (by omega)]⟩

/-- C6 (witness): CH3O is mapped to O by the averaging normalisation and
truncated to C by the index-resolution normalisation. -/
theorem claim_C6_witness :
    avDistSymbol (("CH3O").data) = ("O").data
    ∧ adatomSymbol (("CH3O").data) = (("CH3O").data).take 1 :=
  ⟨(claim_C6_amended_symbol_mapping (("CH3O").data)).1 (Or.inl rfl),
   (claim_C6_amended_symbol_mapping (("CH3O").data)).2.2.1 (by decide)⟩

/-- C7: with no reference final geometries for the species,
`get_av_dist` produces no value (the Python function raises instead of
returning a restraint distance). -/
theorem claim_C7_no_reference_fails (refs : List RefGeom) (species : List Char)
    (sc : ℚ) (scaled : Bool) (h : ∀ g ∈ refs, isFinalXyz g.fname = false) :
    get_av_dist refs species sc scaled = none := by
  unfold get_av_dist
  have hfil : refs.filter (fun g => isFinalXyz g.fname) = [] := by
    rw [List.filter_eq_nil_iff]
    intro a ha
    simp [h a ha]
  rw [hfil]
  simp [avDistLoop]

/-- C7 (witness): a directory holding only a candidate `.xyz` file, no
`_final.xyz` reference, yields no average distance. -/
theorem claim_C7_witness :
    get_av_dist [demoCand] (("O").data) 1 false = none :=
  claim_C7_no_reference_fails [demoCand] (("O").data) 1 false (by decide)

/-- C2: the deduplicator's accumulated unique list is a subsequence of
the candidates in generation order; each candidate's verdict is computed
only against the unique list accumulated over the strictly earlier
candidates; and whenever a later candidate `i` is equivalent to an
earlier candidate `j` that was accepted as unique, candidate `i` (never
`j`) is the one marked for removal. -/
theorem claim_C2_dedup_monotone {α : Type} (eq : α → α → Bool) (geoms : List α) :
    (goodAfter eq [] geoms).Sublist geoms
    ∧ (∀ (i : ℕ) (hi : i < geoms.length),
        (symmResults eq [] geoms).get? i =
          some ((goodAfter eq [] (geoms.take i)).any
            (fun g => eq (geoms.get ⟨i, hi⟩) g)))
    ∧ (∀ (i j : ℕ) (hi : i < geoms.length) (hj : j < geoms.length),
        j < i →
        zfill3 j ∉ checkSymmBeforeXTB eq geoms →
        eq (geoms.get ⟨i, hi⟩) (geoms.get ⟨j, hj⟩) = true →
        zfill3 i ∈ checkSymmBeforeXTB eq geoms) := by
  refine ⟨by simpa using goodAfter_sublist eq geoms [], symmResults_get? eq geoms, ?_⟩
  intro i j hi hj hij hjn hequiv
  have hjn2 : j ∉ notUniqueFrom 0 (symmResults eq [] geoms) := by
    intro hmem
    exact hjn (List.mem_map_of_mem zfill3 hmem)
  have hjfalse : (goodAfter eq [] (geoms.take j)).any
      (fun g => eq (geoms.get ⟨j, hj⟩) g) = false := by
    by_contra hcon
    apply hjn2
    rw [mem_notUniqueFrom]
    refine ⟨j, ?_, by omega⟩
    rw [symmResults_get? eq geoms j hj]
    simp only [Bool.not_eq_false] at hcon
    rw [hcon]
  have htakesucc : geoms.take (j + 1) = geoms.take j ++ [geoms.get ⟨j, hj⟩] := by
    rw [List.take_succ]
    congr
    simp [List.getElem?_eq_getElem hj]
  have hmemj : geoms.get ⟨j, hj⟩ ∈ goodAfter eq [] (geoms.take (j + 1)) := by
    have hstep : goodAfter eq (goodAfter eq [] (geoms.take j)) [geoms.get ⟨j, hj⟩] =
        goodAfter eq [] (geoms.take j) ++ [geoms.get ⟨j, hj⟩] := by
      simp only [goodAfter, hjfalse, Bool.false_eq_true, if_false]
    rw [htakesucc, goodAfter_append, hstep]
    exact List.mem_append_right _ (by simp)
  have hsplit : geoms.take i =
      geoms.take (j + 1) ++ (geoms.take i).drop (j + 1) := by
    conv_lhs => rw [← List.take_append_drop (j + 1) (geoms.take i)]
    rw [List.take_take, min_eq_left (by omega)]
  have hmemi : geoms.get ⟨j, hj⟩ ∈ goodAfter eq [] (geoms.take i) := by
    rw [hsplit, goodAfter_append]
    obtain ⟨t, ht⟩ := goodAfter_extension eq ((geoms.take i).drop (j + 1))
      (goodAfter eq [] (geoms.take (j + 1)))
    rw [ht]
    exact List.mem_append_left _ hmemj
  have hitrue : (symmResults eq [] geoms).get? i = some true := by
    rw [symmResults_get? eq geoms i hi]
    congr 1
    rw [List.any_eq_true]
    exact ⟨geoms.get ⟨j, hj⟩, hmemi, hequiv⟩
  apply List.mem_map_of_mem zfill3
  rw [mem_notUniqueFrom]
  exact ⟨i, hitrue, by omega⟩

/-- C2 (witness): with two identical candidates the second is the one
marked for removal. -/
theorem claim_C2_witness :
    zfill3 1 ∈ checkSymmBeforeXTB (fun a b : ℕ => a == b) [5, 5] :=
  (claim_C2_dedup_monotone (fun a b : ℕ => a == b) [5, 5]).2.2 1 0
    (by decide) (by decide) (by decide) (by decide) (by decide)

/-- C3 (counterexample): the rename `str(prefix).zfill(3) + name[3:]`
keeps all but the first three characters, so a surviving file whose
candidate number has four digits leaks its extra digit into the new
name: renumbering the survivors 1000_A.xyz and 1001_A.xyz makes the
second file 0011_A.xyz, whose numeric prefix parses to 11, not to its
position 1 — the unconditional 0..k-1 no-gap invariant fails. -/
theorem claim_C3_counterexample :
    ((renumberFrom 0 [("1000_A.xyz").data, ("1001_A.xyz").data]).get? 1).map
        (fun out => charsToNat (out.takeWhile Char.isDigit)) = some 11
    ∧ (11 : ℕ) ≠ 1 := by
  refine ⟨by decide, by decide⟩

/-- C3 (amended): when every surviving filename carries a three-digit
zero-padded numeric part followed by a non-digit (the placer's format
for candidate numbers up to 999), the renumbering pass gives the `k`
survivors, in their incoming sorted order, the numeric name parts
`zfill(3)` of `0, …, k-1` — the digit part of the `i`-th output name is
exactly `zfill3 i` and parses back to `i` — and leaves everything after
the digit part unchanged.  For a four-digit survivor the rename keeps
the surplus digits, as the counterexample shows. -/
theorem claim_C3_renumber_contiguous (survivors : List (List Char))
    (hform : ∀ f ∈ survivors, ∃ n s, n ≤ 999 ∧ f = zfill3 n ++ s ∧ headNonDigit s = true) :
    (renumberFrom 0 survivors).length = survivors.length
    ∧ ∀ (i : ℕ) (hi : i < survivors.length),
        ∃ out, (renumberFrom 0 survivors).get? i = some out
          ∧ out.takeWhile Char.isDigit = zfill3 i
          ∧ charsToNat (out.takeWhile Char.isDigit) = i
          ∧ out.dropWhile Char.isDigit =
              (survivors.get ⟨i, hi⟩).dropWhile Char.isDigit := by
  refine ⟨renumberFrom_length survivors 0, ?_⟩
  intro i hi
  obtain ⟨n, suf, hn, hf, hnd⟩ :=
    hform (survivors.get ⟨i, hi⟩) (List.get_mem survivors i hi)
  have hget := renumberFrom_get? survivors 0 i hi
  rw [Nat.zero_add] at hget
  have hdrop : (survivors.get ⟨i, hi⟩).drop 3 = suf := by
    rw [hf, ← zfill3_length_eq_three n hn, List.drop_left]
  refine ⟨zfill3 i ++ (survivors.get ⟨i, hi⟩).drop 3, hget, ?_, ?_, ?_⟩
  · rw [hdrop, takeWhile_append_all Char.isDigit _ _ (zfill3_isDigit i),
      takeWhile_headNonDigit suf hnd, List.append_nil]
  · rw [hdrop, takeWhile_append_all Char.isDigit _ _ (zfill3_isDigit i),
      takeWhile_headNonDigit suf hnd, List.append_nil]
    exact charsToNat_zfill3 i
  · rw [hdrop, dropWhile_append_all Char.isDigit _ _ (zfill3_isDigit i),
      dropWhile_headNonDigit suf hnd, hf,
      dropWhile_append_all Char.isDigit _ _ (zfill3_isDigit n),
      dropWhile_headNonDigit suf hnd]

/-- C3 (witness): the renumbering statement on a two-survivor listing
with original numbers 2 and 5. -/
theorem claim_C3_witness :
    (renumberFrom 0 demoSurvivors).length = demoSurvivors.length
    ∧ ∀ (i : ℕ) (hi : i < demoSurvivors.length),
        ∃ out, (renumberFrom 0 demoSurvivors).get? i = some out
          ∧ out.takeWhile Char.isDigit = zfill3 i
          ∧ charsToNat (out.takeWhile Char.isDigit) = i
          ∧ out.dropWhile Char.isDigit =
              (demoSurvivors.get ⟨i, hi⟩).dropWhile Char.isDigit := by
  apply claim_C3_renumber_contiguous demoSurvivors
  intro f hf
  have hf2 : f = ("002_A.xyz").data ∨ f = ("005_A.xyz").data := by
    simpa [demoSurvivors] using hf
  rcases hf2 with rfl | rfl
  · exact ⟨2, ("_A.xyz").data, by decide, by decide, by decide⟩
  · exact ⟨5, ("_A.xyz").data, by decide, by decide, by decide⟩

/-- C8: attempting to delete a duplicate name that is not in the
directory is recorded as an error but changes nothing else — every other
listed duplicate is still deleted and the renumbering pass still runs,
producing the same final listing as if the missing name had not been
listed. -/
theorem claim_C8_missing_duplicate_tolerated (files pre post : List (List Char))
    (d rxn : List Char)
    (hd : (d ++ ('_' :: (rxn ++ xyzExt))) ∉ files) :
    (filtered_out_equiv_ts_estimate files (pre ++ d :: post) rxn).1 =
      (filtered_out_equiv_ts_estimate files (pre ++ post) rxn).1
    ∧ (d ++ ('_' :: (rxn ++ xyzExt))) ∈
        (filtered_out_equiv_ts_estimate files (pre ++ d :: post) rxn).2 := by
  simp only [filtered_out_equiv_ts_estimate]
  rw [show (pre ++ d :: post).map (fun e => e ++ ('_' :: (rxn ++ xyzExt))) =
      (pre.map (fun e => e ++ ('_' :: (rxn ++ xyzExt)))) ++
        (d ++ ('_' :: (rxn ++ xyzExt))) ::
          (post.map (fun e => e ++ ('_' :: (rxn ++ xyzExt)))) from by simp]
  rw [show (pre ++ post).map (fun e => e ++ ('_' :: (rxn ++ xyzExt))) =
      (pre.map (fun e => e ++ ('_' :: (rxn ++ xyzExt)))) ++
        (post.map (fun e => e ++ ('_' :: (rxn ++ xyzExt)))) from by simp]
  obtain ⟨h1, h2⟩ := deleteDuplicates_missing
    (pre.map (fun e => e ++ ('_' :: (rxn ++ xyzExt))))
    (post.map (fun e => e ++ ('_' :: (rxn ++ xyzExt))))
    files (d ++ ('_' :: (rxn ++ xyzExt))) hd
  exact ⟨by rw [h1], h2⟩

/-- C8 (witness): deleting the absent duplicate 001 from a directory
holding only candidate 000 reports the error and leaves the pipeline
result unchanged. -/
theorem claim_C8_witness :
    (filtered_out_equiv_ts_estimate [("000_R.xyz").data]
        ([] ++ ("001").data :: []) (("R").data)).1 =
      (filtered_out_equiv_ts_estimate [("000_R.xyz").data] ([] ++ []) (("R").data)).1
    ∧ (("001").data ++ ('_' :: ((("R").data) ++ xyzExt))) ∈
        (filtered_out_equiv_ts_estimate [("000_R.xyz").data]
          ([] ++ ("001").data :: []) (("R").data)).2 :=
  claim_C8_missing_duplicate_tolerated [("000_R.xyz").data] [] []
    (("001").data) (("R").data) (by decide)

/-- C5 (counterexample): `get_av_dist` does not identify the surface and
adsorbate lines within each structure — the index lists accumulate across
the references.  With two references of opposite line layouts the code
averages 1 and 0 to 1/2, while the per-structure reading of the claim
gives 1. -/
theorem claim_C5_counterexample :
    get_av_dist [refA, refB] (("O").data) 1 false ≠
      get_av_dist_claimed [refA, refB] (("O").data) 1 false := by
  have h1 : get_av_dist [refA, refB] (("O").data) 1 false = some (1 / 2) := by
    simp +decide [get_av_dist, avDistLoop, scanGeom, scanFrom, lineIsSurface,
      lineIsAds, containsSub, cuSpace, cuSym, avDistSymbol, listMin, isFinalXyz,
      qmean, refA, refB]
  have h2 : get_av_dist_claimed [refA, refB] (("O").data) 1 false = some 1 := by
    simp +decide [get_av_dist_claimed, claimedMins, claimedFileMin, scanGeom,
      scanFrom, lineIsSurface, lineIsAds, containsSub, cuSpace, cuSym,
      avDistSymbol, listMin, isFinalXyz, qmean, refA, refB]
  rw [h1, h2]
  intro hx
  exact absurd (Option.some.inj hx) (by norm_num)

/-- C5 (amended): when every reference final geometry yields the same
surface/adsorbate scan (the common case of a shared line layout),
`get_av_dist` equals the per-structure description of the claim: the
mean over references of each reference's minimum fragment-to-surface
distance, times the scale factor exactly when `scaled` is set.  In
general the index lists accumulate across references (see the
counterexample). -/
theorem claim_C5_average_distance (refs : List RefGeom) (species : List Char)
    (sc : ℚ) (scaled : Bool)
    (huni : ∀ g₁ ∈ refs.filter (fun g => isFinalXyz g.fname),
            ∀ g₂ ∈ refs.filter (fun g => isFinalXyz g.fname),
        scanGeom (avDistSymbol species) g₁.lines =
          scanGeom (avDistSymbol species) g₂.lines) :
    get_av_dist refs species sc scaled = get_av_dist_claimed refs species sc scaled := by
  unfold get_av_dist get_av_dist_claimed
  dsimp only
  cases hf : refs.filter (fun g => isFinalXyz g.fname) with
  | nil => simp [avDistLoop, claimedMins]
  | cons g0 t =>
      have hall : ∀ g ∈ g0 :: t, scanGeom (avDistSymbol species) g.lines =
          ((scanGeom (avDistSymbol species) g0.lines).1,
           (scanGeom (avDistSymbol species) g0.lines).2) := by
        intro g hg
        have h1 := huni g (by rw [hf]; exact hg) g0 (by rw [hf]; simp)
        rw [h1]
      have hkey := avDistLoop_uniform (avDistSymbol species)
        (scanGeom (avDistSymbol species) g0.lines).1
        (scanGeom (avDistSymbol species) g0.lines).2
        (g0 :: t) 0 [] hall
      simp only [repConcat] at hkey
      rw [hkey]
      cases claimedMins (avDistSymbol species) (g0 :: t) with
      | none => rfl
      | some ds => simp

/-- C5 (witness): two references sharing the line layout but with
different distance oracles give the claimed per-structure average. -/
theorem claim_C5_witness :
    get_av_dist [refA, refC] (("O").data) 1 false =
      get_av_dist_claimed [refA, refC] (("O").data) 1 false :=
  claim_C5_average_distance [refA, refC] (("O").data) 1 false (by decide)

/-- C9: the index helpers are partial — with no non-surface line
matching the truncated species symbol both `get_index_adatom` and
`get_index_surface_atom` produce no index (Python raises an
out-of-bounds `IndexError` at `adsorbate_atom[0]`) — and under the
precondition `get_index_adatom` returns the lowest-numbered matching
line's number minus the two header lines. -/
theorem claim_C9_index_partiality (sym : List Char) (g : RefGeom) :
    ((∀ l ∈ g.lines, lineIsAds (adatomSymbol sym) l = false) →
      get_index_adatom sym g.lines = none ∧ get_index_surface_atom sym g = none)
    ∧ ∀ (h : ∃ i, ((g.lines.get? i).any (lineIsAds (adatomSymbol sym))) = true),
        get_index_adatom sym g.lines = some ((Nat.find h : ℤ) - 2) := by
  constructor
  · intro hno
    constructor
    · unfold get_index_adatom
      rw [adatomScan_nil _ _ _ hno]
      rfl
    · unfold get_index_surface_atom
      have hads := scanFrom_snd_nil (adatomSymbol sym) g.lines 0 hno
      unfold scanGeom
      dsimp only
      rw [hads]
      rfl
  · intro h
    unfold get_index_adatom
    rw [adatomScan_head (adatomSymbol sym) g.lines 0 h]
    congr 1
    ring

/-- C9 (witness): in the demo candidate the first oxygen line is line 3,
so the returned adatom index is 1. -/
theorem claim_C9_witness :
    get_index_adatom (("O").data) demoCand.lines = some 1 := by
  have h : ∃ i, ((demoCand.lines.get? i).any
      (lineIsAds (adatomSymbol (("O").data)))) = true := ⟨3, by decide⟩
  have h2 := (claim_C9_index_partiality (("O").data) demoCand).2 h
  have hf : Nat.find h = 3 := by
    rw [Nat.find_eq_iff]
    exact ⟨by decide, by decide⟩
  rw [h2, hf]
  decide

/-- C10: within one emitter invocation the `avDists` pair is computed
once, from the reference minima and the two tracked species only, before
the candidate loop: every emitted job of the same invocation — and of any
invocation over a different candidate set — carries the identical
`avDists`, equal to the pair of `get_av_dist` results. -/
theorem claim_C10_avdists_invariant (refs1 refs2 : List RefGeom)
    (sp1 sp2 : List Char) (sc : ℚ) (scaled1 scaled2 : Bool)
    (cands cands2 : List RefGeom) (j1 j2 : PenaltyJob)
    (h1 : j1 ∈ set_up_penalty_xtb refs1 refs2 sp1 sp2 sc scaled1 scaled2 cands)
    (h2 : j2 ∈ set_up_penalty_xtb refs1 refs2 sp1 sp2 sc scaled1 scaled2 cands2) :
    j1.avDists = j2.avDists
    ∧ j1.avDists = (get_av_dist refs1 sp1 sc scaled1, get_av_dist refs2 sp2 sc scaled2) := by
  unfold set_up_penalty_xtb at h1 h2
  obtain ⟨g1, _, hg1⟩ := List.mem_map.mp h1
  obtain ⟨g2, _, hg2⟩ := List.mem_map.mp h2
  subst hg1
  subst hg2
  exact ⟨rfl, rfl⟩

/-- C10 (witness): the job emitted for the demo candidate carries the
`avDists` pair computed from the (here empty) reference sets. -/
theorem claim_C10_witness :
    demoJob.avDists =
      (get_av_dist [] (("O").data) 1 false, get_av_dist [] (("H").data) 1 false) :=
  (claim_C10_avdists_invariant [] [] (("O").data) (("H").data) 1 false false
    [demoCand] [demoCand] demoJob demoJob (by decide) (by decide)).2

end TsTest
